import Mathlib

/-!
Verification of the watermark detection engine of `src/watermark/detector.py`.

The Python module is embedded shallowly: byte strings become `List Nat`
(each entry a byte value `< 256`), Python `str` becomes Lean `String`,
Python floats become `ℚ` (the scoring arithmetic is exact decimal
arithmetic, so rationals model it faithfully), and the external
`WatermarkDecoder` (from the `imwatermark` library, an opaque codec) is an
oracle parameter `Nat → DecodeOut`.  Image loading is outside the embedded
fragment: every theorem quantifies over the oracle, which already captures
"any image".
-/

set_option maxRecDepth 4000

namespace Watermark

/-- Hex digit character for a value `< 16` (lowercase, as Python's `bytes.hex`). -/
def hexChar (n : Nat) : Char :=
  if n < 10 then Char.ofNat (48 + n) else Char.ofNat (87 + n)

/-- Two lowercase hex digits of one byte, as in Python's `bytes.hex`. -/
def byteHex (b : Nat) : String :=
  ⟨[hexChar (b / 16 % 16), hexChar (b % 16)]⟩

/-- Model of Python `bytes.hex()`. -/
def bytesHex (bs : List Nat) : String :=
  String.join (bs.map byteHex)

/-- Model of Python `str.isprintable` for a single character, exact on the
code points reachable from the byte decoders used here: ASCII `0x20..0x7E`
printable, C0/C1 controls, DEL, NBSP and soft hyphen not printable, all
other Latin-1 and the BMP punctuation/letters produced by cp1252 printable. -/
def pyIsPrintable (c : Char) : Bool :=
  let n := c.toNat
  if n < 32 then false
  else if n < 127 then true
  else if n < 161 then false
  else if n = 173 then false
  else true

/-- UTF-8 encoding of one character (model of CPython's encoder). -/
def charUtf8 (c : Char) : List Nat :=
  let n := c.toNat
  if n < 128 then [n]
  else if n < 2048 then [192 + n / 64, 128 + n % 64]
  else if n < 65536 then [224 + n / 4096, 128 + n / 64 % 64, 128 + n % 64]
  else [240 + n / 262144, 128 + n / 4096 % 64, 128 + n / 64 % 64, 128 + n % 64]

/-- Model of Python `s.encode('utf-8')`. -/
def strUtf8 (s : String) : List Nat :=
  s.data.flatMap charUtf8

/-- Model of `len(s.encode('utf-8'))`. -/
def byteLen (s : String) : Nat :=
  (strUtf8 s).length

/-- Whether a byte is a UTF-8 continuation byte `0x80..0xBF`. -/
def isCont (b : Nat) : Bool :=
  128 ≤ b && b < 192

/-- Whether a byte leads a two-byte UTF-8 sequence. -/
def isLead2 (b : Nat) : Bool := 194 ≤ b && b ≤ 223

/-- Whether a byte leads a three-byte UTF-8 sequence. -/
def isLead3 (b : Nat) : Bool := 224 ≤ b && b ≤ 239

/-- Whether a byte leads a four-byte UTF-8 sequence. -/
def isLead4 (b : Nat) : Bool := 240 ≤ b && b ≤ 244

/-- Validity of the continuation bytes of a three-byte sequence (the lead
byte restricts the first continuation so that overlong forms and UTF-16
surrogates are rejected, as CPython does). -/
def cont3ok (b c1 c2 : Nat) : Bool :=
  (if b = 224 then 160 else 128) ≤ c1 && c1 ≤ (if b = 237 then 159 else 191) && isCont c2

/-- Validity of the continuation bytes of a four-byte sequence. -/
def cont4ok (b c1 c2 c3 : Nat) : Bool :=
  (if b = 240 then 144 else 128) ≤ c1 && c1 ≤ (if b = 244 then 143 else 191)
    && isCont c2 && isCont c3

/-- Code point of a valid two-byte sequence. -/
def char2 (b c1 : Nat) : Char := Char.ofNat ((b - 192) * 64 + (c1 - 128))

/-- Code point of a valid three-byte sequence. -/
def char3 (b c1 c2 : Nat) : Char :=
  Char.ofNat ((b - 224) * 4096 + (c1 - 128) * 64 + (c2 - 128))

/-- Code point of a valid four-byte sequence. -/
def char4 (b c1 c2 c3 : Nat) : Char :=
  Char.ofNat ((b - 240) * 262144 + (c1 - 128) * 4096 + (c2 - 128) * 64 + (c3 - 128))

/-- Strict UTF-8 decoding of a byte list (model of CPython's strict UTF-8
decoder: rejects overlong forms, surrogates and code points above
`0x10FFFF`); `none` models `UnicodeDecodeError`. -/
def utf8DecodeList : List Nat → Option (List Char)
  | [] => some []
  | b :: rest =>
    if b < 128 then
      (utf8DecodeList rest).map (Char.ofNat b :: ·)
    else if isLead2 b then
      match rest with
      | c1 :: rest2 =>
        if isCont c1 then (utf8DecodeList rest2).map (char2 b c1 :: ·) else none
      | [] => none
    else if isLead3 b then
      match rest with
      | c1 :: c2 :: rest2 =>
        if cont3ok b c1 c2 then (utf8DecodeList rest2).map (char3 b c1 c2 :: ·) else none
      | _ => none
    else if isLead4 b then
      match rest with
      | c1 :: c2 :: c3 :: rest2 =>
        if cont4ok b c1 c2 c3 then (utf8DecodeList rest2).map (char4 b c1 c2 c3 :: ·) else none
      | _ => none
    else none

/-- Model of Python `bytes.decode('utf-8')` (strict). -/
def utf8Decode (bs : List Nat) : Option String :=
  (utf8DecodeList bs).map fun cs => ⟨cs⟩

/-- Lossy UTF-8 decoding, model of `decode('utf-8', errors='ignore')`:
on an invalid sequence one byte is dropped and decoding resumes at the
next byte (CPython drops the maximal invalid subpart; byte-wise dropping
is an equivalent-for-our-purposes model noted here). -/
def utf8IgnoreList : List Nat → List Char
  | [] => []
  | [b] => if b < 128 then [Char.ofNat b] else []
  | [b, c1] =>
    if b < 128 then Char.ofNat b :: utf8IgnoreList [c1]
    else if isLead2 b && isCont c1 then [char2 b c1]
    else utf8IgnoreList [c1]
  | [b, c1, c2] =>
    if b < 128 then Char.ofNat b :: utf8IgnoreList [c1, c2]
    else if isLead2 b then
      if isCont c1 then char2 b c1 :: utf8IgnoreList [c2] else utf8IgnoreList [c1, c2]
    else if isLead3 b && cont3ok b c1 c2 then [char3 b c1 c2]
    else utf8IgnoreList [c1, c2]
  | b :: c1 :: c2 :: c3 :: rest =>
    if b < 128 then Char.ofNat b :: utf8IgnoreList (c1 :: c2 :: c3 :: rest)
    else if isLead2 b then
      if isCont c1 then char2 b c1 :: utf8IgnoreList (c2 :: c3 :: rest)
      else utf8IgnoreList (c1 :: c2 :: c3 :: rest)
    else if isLead3 b then
      if cont3ok b c1 c2 then char3 b c1 c2 :: utf8IgnoreList (c3 :: rest)
      else utf8IgnoreList (c1 :: c2 :: c3 :: rest)
    else if isLead4 b then
      if cont4ok b c1 c2 c3 then char4 b c1 c2 c3 :: utf8IgnoreList rest
      else utf8IgnoreList (c1 :: c2 :: c3 :: rest)
    else utf8IgnoreList (c1 :: c2 :: c3 :: rest)

/-- Lossy UTF-8 decoding, model of `decode('utf-8', errors='replace')`:
on an invalid sequence one byte becomes U+FFFD and decoding resumes. -/
def utf8ReplaceList : List Nat → List Char
  | [] => []
  | [b] => if b < 128 then [Char.ofNat b] else [Char.ofNat 65533]
  | [b, c1] =>
    if b < 128 then Char.ofNat b :: utf8ReplaceList [c1]
    else if isLead2 b && isCont c1 then [char2 b c1]
    else Char.ofNat 65533 :: utf8ReplaceList [c1]
  | [b, c1, c2] =>
    if b < 128 then Char.ofNat b :: utf8ReplaceList [c1, c2]
    else if isLead2 b then
      if isCont c1 then char2 b c1 :: utf8ReplaceList [c2]
      else Char.ofNat 65533 :: utf8ReplaceList [c1, c2]
    else if isLead3 b && cont3ok b c1 c2 then [char3 b c1 c2]
    else Char.ofNat 65533 :: utf8ReplaceList [c1, c2]
  | b :: c1 :: c2 :: c3 :: rest =>
    if b < 128 then Char.ofNat b :: utf8ReplaceList (c1 :: c2 :: c3 :: rest)
    else if isLead2 b then
      if isCont c1 then char2 b c1 :: utf8ReplaceList (c2 :: c3 :: rest)
      else Char.ofNat 65533 :: utf8ReplaceList (c1 :: c2 :: c3 :: rest)
    else if isLead3 b then
      if cont3ok b c1 c2 then char3 b c1 c2 :: utf8ReplaceList (c3 :: rest)
      else Char.ofNat 65533 :: utf8ReplaceList (c1 :: c2 :: c3 :: rest)
    else if isLead4 b then
      if cont4ok b c1 c2 c3 then char4 b c1 c2 c3 :: utf8ReplaceList rest
      else Char.ofNat 65533 :: utf8ReplaceList (c1 :: c2 :: c3 :: rest)
    else Char.ofNat 65533 :: utf8ReplaceList (c1 :: c2 :: c3 :: rest)

/-- Windows-1252 value of one byte; `none` for the five undefined bytes
(0x81, 0x8D, 0x8F, 0x90, 0x9D), on which CPython's strict cp1252 decoder
raises. -/
def cp1252Byte (b : Nat) : Option Char :=
  if b = 129 ∨ b = 141 ∨ b = 143 ∨ b = 144 ∨ b = 157 then none
  else if b < 128 ∨ (160 ≤ b ∧ b < 256) then some (Char.ofNat b)
  else if 128 ≤ b ∧ b < 160 then
    some (Char.ofNat ([0x20AC, 0, 0x201A, 0x0192, 0x201E, 0x2026, 0x2020, 0x2021,
      0x02C6, 0x2030, 0x0160, 0x2039, 0x0152, 0, 0x017D, 0,
      0, 0x2018, 0x2019, 0x201C, 0x201D, 0x2022, 0x2013, 0x2014,
      0x02DC, 0x2122, 0x0161, 0x203A, 0x0153, 0, 0x017E, 0x0178].getD (b - 128) 0))
  else none

/-- The five text encodings tried by `bytes_to_text_smart`, in priority
order (`iso-8859-1` is CPython's alias of `latin-1`; it is kept as a
distinct entry because the source lists it separately). -/
inductive Enc
  | utf8
  | ascii
  | latin1
  | cp1252
  | iso88591
deriving DecidableEq

/-- The encoding name used in the returned `encoding_used` field. -/
def encName : Enc → String
  | .utf8 => "utf-8"
  | .ascii => "ascii"
  | .latin1 => "latin-1"
  | .cp1252 => "cp1252"
  | .iso88591 => "iso-8859-1"

/-- The priority list `['utf-8', 'ascii', 'latin-1', 'cp1252', 'iso-8859-1']`. -/
def encList : List Enc :=
  [.utf8, .ascii, .latin1, .cp1252, .iso88591]

/-- Strict decoding under one encoding (`none` models `UnicodeDecodeError`). -/
def decodeStrict : Enc → List Nat → Option String
  | .utf8, bs => utf8Decode bs
  | .ascii, bs => if bs.all (· < 128) then some ⟨bs.map Char.ofNat⟩ else none
  | .latin1, bs => if bs.all (· < 256) then some ⟨bs.map Char.ofNat⟩ else none
  | .cp1252, bs => (bs.mapM cp1252Byte).map fun cs => ⟨cs⟩
  | .iso88591, bs => if bs.all (· < 256) then some ⟨bs.map Char.ofNat⟩ else none

/-- Lossy decoding under one encoding (`errors='ignore'`): invalid bytes
are dropped. -/
def decodeIgnore : Enc → List Nat → String
  | .utf8, bs => ⟨utf8IgnoreList bs⟩
  | .ascii, bs => ⟨(bs.filter (· < 128)).map Char.ofNat⟩
  | .latin1, bs => ⟨(bs.filter (· < 256)).map Char.ofNat⟩
  | .cp1252, bs => ⟨bs.filterMap cp1252Byte⟩
  | .iso88591, bs => ⟨(bs.filter (· < 256)).map Char.ofNat⟩

/-- Printable-character fraction of a decoded string:
`sum(1 for c in decoded if c.isprintable()) / len(decoded) if decoded else 0`. -/
def printableFrac (s : String) : ℚ :=
  if s = "" then 0 else (s.data.countP pyIsPrintable : ℚ) / (s.data.length : ℚ)

/-- First phase of `bytes_to_text_smart`: strict decoding under the
priority list, accepting the first decode whose printable fraction
exceeds 0.7. -/
def strictPhase (bs : List Nat) : Option (String × String × ℚ) :=
  encList.findSome? fun e =>
    match decodeStrict e bs with
    | some d => if printableFrac d > 7/10 then some (d, encName e, printableFrac d) else none
    | none => none

/-- Second phase of `bytes_to_text_smart`: lossy decoding under the same
list, accepting the first non-empty result at half its printable fraction. -/
def ignorePhase (bs : List Nat) : Option (String × String × ℚ) :=
  encList.findSome? fun e =>
    let d := decodeIgnore e bs
    if d ≠ "" then some (d, encName e ++ "(ignore)", printableFrac d * (1/2)) else none

/-- Guarded `decode('utf-8', errors='replace')`: CPython's replace decoder
is total on byte strings, so it only fails (sending the source to its
`except:` hex fallback) on values that are not bytes at all; entries
`≥ 256` model that. -/
def utf8ReplaceOpt (bs : List Nat) : Option String :=
  if bs.all (· < 256) then some ⟨utf8ReplaceList bs⟩ else none

/-- Model of `bytes_to_text_smart` (detector.py lines 54-96): returns
`(decoded_text, encoding_used, confidence)`. -/
def bytes_to_text_smart (bs : List Nat) : Option String × Option String × ℚ :=
  if bs = [] then (none, none, 0)
  else
    match strictPhase bs with
    | some (d, e, c) => (some d, some e, c)
    | none =>
      match ignorePhase bs with
      | some (d, e, c) => (some d, some e, c)
      | none =>
        match utf8ReplaceOpt bs with
        | some d => (some d, some "utf-8(replace)", 3/10)
        | none => (some (bytesHex bs), some "hex", 1/10)

/-- Insert a value into a strictly increasing list, keeping it strictly
increasing (no duplicate is created). -/
def insDedup (a : Nat) : List Nat → List Nat
  | [] => [a]
  | b :: t => if a < b then a :: b :: t else if a = b then b :: t else b :: insDedup a t

/-- Model of Python `sorted(list(set(l)))`: the strictly increasing
enumeration of the elements of `l`. -/
def sortedDedup (l : List Nat) : List Nat :=
  l.foldr insDedup []

/-- The offsets `range(-32, 33, 8)` swept around the base length. -/
def sweepOffsets : List Int :=
  [-32, -24, -16, -8, 0, 8, 16, 24, 32]

/-- The fixed common lengths appended by `detect_watermark_robust`. -/
def commonLengths : List Nat :=
  [32, 64, 96, 112, 128, 160, 192, 224, 256]

/-- The offset sweep around a base length, clipped to `[8, 512]`
(detector.py lines 322-327). -/
def sweepLengths (base : Nat) : List Nat :=
  sweepOffsets.filterMap fun off =>
    if 8 ≤ (base : Int) + off ∧ (base : Int) + off ≤ 512 then
      some ((base : Int) + off).toNat
    else none

/-- Model of the length-candidate computation of `detect_watermark_robust`
(detector.py lines 319-338): offset sweep around `len(watermark.encode('utf-8'))*8`
clipped to `[8, 512]`, the hint inserted at the front, common lengths
appended when absent, and the whole finished by `sorted(list(set(...)))`.
`some ""` and `some 0` are Python-falsy and behave like `None`. -/
def testLengths (watermark : Option String) (hint : Option Nat) : List Nat :=
  let t0 : List Nat :=
    match watermark with
    | some w => if w = "" then [] else sweepLengths (byteLen w * 8)
    | none => []
  let t1 : List Nat :=
    match hint with
    | some h => if h = 0 then t0 else h :: t0
    | none => t0
  let t2 := commonLengths.foldl (fun acc cl => if cl ∈ acc then acc else acc ++ [cl]) t1
  sortedDedup t2

/-- Model of Python `str.lower` (ASCII case folding, as in the payloads
the source handles; implemented on the character list so that it
evaluates inside the kernel). -/
def pyLower (s : String) : String :=
  ⟨s.data.map Char.toLower⟩

/-- Model of Python `str.strip`: remove leading and trailing whitespace. -/
def pyStrip (s : String) : String :=
  ⟨(((s.data.dropWhile Char.isWhitespace).reverse.dropWhile Char.isWhitespace).reverse)⟩

/-- One left-to-right pass filling a row of the edit-distance table
(detector.py lines 26-42): at each cell, `diag` is `dp[i-1][j-1]`, the
head of `pr` is `dp[i-1][j]` and `left` is the freshly computed
`dp[i][j-1]`. -/
def dpCells (a : Char) : List Char → Nat → List Nat → Nat → List Nat
  | [], _, _, _ => []
  | _ :: _, _, [], _ => []
  | b :: bs, diag, up :: pr, left =>
    let cur := if a = b then diag else 1 + min up (min left diag)
    cur :: dpCells a bs up pr cur

/-- Row-by-row evaluation of the dynamic-programming table: consumes the
characters of the first string, carrying the previous row and the row
index. -/
def dpRows (t : List Char) : List Char → List Nat → Nat → List Nat
  | [], prev, _ => prev
  | a :: s, prev, i =>
    dpRows t s ((i + 1) :: dpCells a t (prev.headD 0) (prev.drop 1) (i + 1)) (i + 1)

/-- Model of the nested `edit_distance` of `calculate_similarity`
(classic Levenshtein dynamic programming; the value is `dp[m][n]`, the
last cell of the last row). -/
def editDistance (s t : List Char) : Nat :=
  (dpRows t s (List.range (t.length + 1)) 0).getLastD 0

/-- Model of `calculate_similarity` (detector.py lines 14-51): normalized
case-insensitive edit-distance similarity; any empty argument gives 0. -/
def calculate_similarity (str1 str2 : String) : ℚ :=
  if str1 = "" ∨ str2 = "" then 0
  else
    let distance := editDistance (pyLower str1).data (pyLower str2).data
    let maxLen := max str1.length str2.length
    if maxLen = 0 then 1
    else max 0 (1 - (distance : ℚ) / (maxLen : ℚ))

/-- Whether `n` occurs at the front of `h`. -/
def startsList : List Char → List Char → Bool
  | [], _ => true
  | _ :: _, [] => false
  | a :: n, b :: h => a == b && startsList n h

/-- Whether `n` occurs as a contiguous sublist of `h` (model of Python's
`in` on strings). -/
def subList (n h : List Char) : Bool :=
  (List.range (h.length + 1)).any fun i => startsList n (h.drop i)

/-- Characters kept by `re.sub(r'[^\w\s\-_.]', '', text)`: word characters
(alphanumeric or underscore; the source operates on ASCII payloads),
whitespace, hyphen, underscore and period. -/
def keepChar (c : Char) : Bool :=
  c.isAlphanum || c = '_' || c.isWhitespace || c = '-' || c = '.'

/-- Model of the `clean_text` preprocessing of `fuzzy_watermark_match`:
strip the characters above, then trim surrounding whitespace. -/
def clean_text (text : String) : String :=
  pyStrip ⟨text.data.filter keepChar⟩

/-- Keys of the `char_frequency` dictionary: the distinct alphanumeric
characters of the lower-cased text, in first-occurrence order. -/
def freqKeys (text : String) : List Char :=
  ((pyLower text).data.filter Char.isAlphanum).dedup

/-- The 3-character keyword list (with duplicates, as in the source) that
rule 5 extracts from `expected.lower()`. -/
def keywordsOf (expected : String) : List (List Char) :=
  (((List.range ((pyLower expected).length - 2)).map
      fun i => ((pyLower expected).data.drop i).take 3).filter
    fun kw => !kw.isEmpty && kw.all Char.isAlphanum)

/-- The keyword-overlap score of rule 5: the fraction of extracted
3-character keywords (duplicates counted) found inside the lower-cased
decoded text. -/
def kwFrac (expected decoded : String) : ℚ :=
  (((if 4 ≤ expected.length then keywordsOf expected else []).countP
      fun kw => subList kw (pyLower decoded).data : Nat) : ℚ) /
    (((if 4 ≤ expected.length then keywordsOf expected else []).length : Nat) : ℚ)

/-- The character-frequency overlap score of rule 6: shared distinct
alphanumeric characters over the larger character-set size. -/
def freqFrac (expected decoded : String) : ℚ :=
  ((((freqKeys expected).filter (· ∈ freqKeys decoded)).length : Nat) : ℚ) /
    (((max (freqKeys expected).length (freqKeys decoded).length : Nat) : ℚ))

/-- Model of `fuzzy_watermark_match` (detector.py lines 99-184): the
seven-rule cascade, returning `(is_match, similarity_score, match_reason)`.
The source's local variables (`sim`, `keywords`, ...) are inlined; the
reason strings keep only the constant prefix of the source's formatted
messages. -/
def fuzzy_watermark_match (expected decoded : String) (thr : ℚ) : Bool × ℚ × String :=
  if decoded = "" then (false, 0, "解码内容为空")
  else if decoded = expected then (true, 1, "精确匹配")
  else if clean_text decoded = clean_text expected ∧ clean_text expected ≠ "" then
    (true, 19/20, "清理后精确匹配")
  else if calculate_similarity expected decoded ≥ thr then
    (true, calculate_similarity expected decoded, "高相似度匹配")
  else if clean_text expected ≠ "" ∧ clean_text decoded ≠ "" ∧
      calculate_similarity (clean_text expected) (clean_text decoded) ≥ thr then
    (true, calculate_similarity (clean_text expected) (clean_text decoded), "清理后相似度匹配")
  else if (if 4 ≤ expected.length then keywordsOf expected else []) ≠ [] ∧
      kwFrac expected decoded ≥ 1/2 then
    (true, kwFrac expected decoded * (4/5), "关键词匹配")
  else if freqKeys expected ≠ [] ∧ freqKeys decoded ≠ [] ∧
      (freqKeys expected).filter (· ∈ freqKeys decoded) ≠ [] ∧
      freqFrac expected decoded ≥ 3/5 then
    (true, freqFrac expected decoded * (7/10), "字符频率匹配")
  else if ((expected.length : Int) - (decoded.length : Int)).natAbs ≤ 2 ∧
      calculate_similarity expected decoded ≥ 2/5 then
    (true, calculate_similarity expected decoded * (4/5), "长度相似匹配")
  else (false, calculate_similarity expected decoded, "不匹配")

/-- Maximal runs matched by `re.findall(r'[a-zA-Z]+|\d+', text)`: maximal
blocks of ASCII letters and maximal blocks of digits, in order. -/
def alnumRuns : List Char → List (List Char)
  | [] => []
  | c :: rest =>
    let rs := alnumRuns rest
    if c.isAlpha then
      match rest, rs with
      | d :: _, r :: rs2 => if d.isAlpha then (c :: r) :: rs2 else [c] :: rs
      | _, _ => [c] :: rs
    else if c.isDigit then
      match rest, rs with
      | d :: _, r :: rs2 => if d.isDigit then (c :: r) :: rs2 else [c] :: rs
      | _, _ => [c] :: rs
    else rs

/-- The lower-cased patterns of length at least 2 kept in a signature. -/
def patternsOf (text : String) : List (List Char) :=
  (alnumRuns text.data).filterMap fun r =>
    if 2 ≤ r.length then some (r.map Char.toLower) else none

/-- The fields of `create_watermark_signature` that `match_by_signature`
reads (detector.py lines 187-218).  The two content hashes of the source
come from `hashlib` and are never consulted by the matcher, so they are
not modelled. -/
structure Signature where
  text : String
  length : Nat
  charSet : List Char
  patterns : List (List Char)
deriving DecidableEq

/-- Model of `create_watermark_signature`. -/
def create_watermark_signature (text : String) : Signature :=
  { text := text
    length := text.length
    charSet := (pyLower text).data.dedup
    patterns := patternsOf text }

/-- Length-proximity score of `match_by_signature` (weight 0.2, only
when the character lengths differ by at most 2). -/
def sigLenScore (sig : Signature) (decodedText : String) : ℚ :=
  if ((decodedText.length : Int) - (sig.length : Int)).natAbs ≤ 2 then
    (1 - ((((decodedText.length : Int) - (sig.length : Int)).natAbs : Nat) : ℚ) /
        ((max decodedText.length sig.length : Nat) : ℚ)) * (1/5)
  else 0

/-- Character-set overlap score of `match_by_signature` (weight 0.3, only
when some character is shared). -/
def sigCharScore (sig : Signature) (decodedText : String) : ℚ :=
  if 0 < (sig.charSet.filter (· ∈ (pyLower decodedText).data.dedup)).length then
    (((sig.charSet.filter (· ∈ (pyLower decodedText).data.dedup)).length : ℚ) /
        (sig.charSet.length : ℚ)) * (3/10)
  else 0

/-- The number of signature patterns that overlap (as substring in either
direction) with some pattern of the decoded text. -/
def patMatches (sig : Signature) (decodedText : String) : Nat :=
  sig.patterns.countP fun ep =>
    (patternsOf decodedText).any fun dp => subList ep dp || subList dp ep

/-- Pattern-overlap score of `match_by_signature` (weight 0.4, only when
some pattern matched). -/
def sigPatScore (sig : Signature) (decodedText : String) : ℚ :=
  if sig.patterns ≠ [] ∧ 0 < patMatches sig decodedText then
    ((patMatches sig decodedText : ℚ) / (sig.patterns.length : ℚ)) * (2/5)
  else 0

/-- Positionwise byte agreement between the decoded bytes and the UTF-8
bytes of the expected text, over the shorter length. -/
def byteSim (sig : Signature) (decodedBytes : List Nat) : ℚ :=
  if 0 < min decodedBytes.length (strUtf8 sig.text).length then
    (((decodedBytes.zip (strUtf8 sig.text)).countP fun p => p.1 = p.2 : Nat) : ℚ) /
      ((min decodedBytes.length (strUtf8 sig.text).length : Nat) : ℚ)
  else 0

/-- Byte-agreement score of `match_by_signature` (weight 0.1, only
counted above 30% agreement on non-empty decoded bytes). -/
def sigByteScore (sig : Signature) (decodedBytes : List Nat) : ℚ :=
  if decodedBytes ≠ [] ∧ byteSim sig decodedBytes > 3/10 then
    byteSim sig decodedBytes * (1/10)
  else 0

/-- The summed signature score (`total_score` in the source). -/
def sigTotal (sig : Signature) (decodedBytes : List Nat) (decodedText : String) : ℚ :=
  sigLenScore sig decodedText + sigCharScore sig decodedText +
    sigPatScore sig decodedText + sigByteScore sig decodedBytes

/-- Model of `match_by_signature` (detector.py lines 221-286): weighted
sum of length proximity (0.2), character-set overlap (0.3), pattern
overlap (0.4) and byte-position agreement (0.1, only above 30%); a match
needs a total of at least 0.4.  The source accumulates the fired
components in a `scores` list and sums it; the component functions above
give 0 exactly when the source appends nothing. -/
def match_by_signature (sig : Signature) (decodedBytes : List Nat) (decodedText : String) :
    Bool × ℚ × String :=
  if decodedText = "" then (false, 0, "无解码文本")
  else
    (sigTotal sig decodedBytes decodedText ≥ 2/5,
      sigTotal sig decodedBytes decodedText, "签名评分")

/-- The fused confidence of one detection attempt (detector.py lines
390-393): the cascade and signature confidences are both damped by the
readability confidence, the signature one boosted by 1.2, and the larger
wins.  The source applies no clamping. -/
def fusedConfidence (fuzzyConf sigConf textConf : ℚ) : ℚ :=
  max (fuzzyConf * textConf) (sigConf * textConf * (6/5))

/-- Outcome of one call of the external `WatermarkDecoder` (the opaque
`imwatermark` codec): it can raise, return `None`, or return a byte
string.  An oracle `Nat → DecodeOut` gives the outcome at each declared
bit length, which fully captures the image passed to the decoder. -/
inductive DecodeOut
  | err
  | null
  | ok (bytes : List Nat)
deriving DecidableEq

/-- The diagnostic record kept for one probed length (the `attempt_info`
dictionary of `detect_watermark_robust`; the raw-byte hex dump is omitted
as it duplicates the oracle input). -/
structure Attempt where
  length : Nat
  success : Bool
  decodedText : Option String
  encoding : Option String
  fuzzyMatch : Option (Bool × ℚ × String)
  sigMatch : Option (Bool × ℚ × String)
deriving DecidableEq

/-- An attempt that recorded a decoder failure (exception or `None`). -/
def failedAttempt (L : Nat) : Attempt :=
  { length := L, success := false, decodedText := none, encoding := none,
    fuzzyMatch := none, sigMatch := none }

/-- One iteration of the probing loop of `detect_watermark_robust`
(detector.py lines 344-417): the recorded attempt, and the candidate
best-result update `(combined_confidence, decoded_text, test_length)`
when either scorer matched. -/
def probeAttempt (oracle : Nat → DecodeOut) (watermark : Option String) (L : Nat) :
    Attempt × Option (ℚ × String × Nat) :=
  match oracle L with
  | .err => (failedAttempt L, none)
  | .null => (failedAttempt L, none)
  | .ok bytes =>
    let r := bytes_to_text_smart bytes
    match watermark, r.1 with
    | some w, some t =>
      if w ≠ "" ∧ t ≠ "" then
        let fm := fuzzy_watermark_match w t (3/5)
        let sm := match_by_signature (create_watermark_signature w) bytes t
        let comb := fusedConfidence fm.2.1 sm.2.1 r.2.2
        ({ length := L, success := true, decodedText := some t, encoding := r.2.1,
           fuzzyMatch := some fm, sigMatch := some sm },
         if fm.1 || sm.1 then some (comb, t, L) else none)
      else
        ({ length := L, success := true, decodedText := some t, encoding := r.2.1,
           fuzzyMatch := none, sigMatch := none }, none)
    | _, _ =>
      ({ length := L, success := true, decodedText := r.1, encoding := r.2.1,
         fuzzyMatch := none, sigMatch := none }, none)

/-- Best-result tracking: a new match replaces the current best only when
its fused confidence is strictly larger. -/
def updBest (best m : Option (ℚ × String × Nat)) : Option (ℚ × String × Nat) :=
  match m, best with
  | some (c, t, l), some (bc, bt, bl) => if c > bc then some (c, t, l) else some (bc, bt, bl)
  | some x, none => some x
  | none, b => b

/-- The first successfully decoded non-empty text among the attempts
(detector.py lines 428-430). -/
def firstSuccessText (atts : List Attempt) : Option String :=
  atts.findSome? fun a =>
    if a.success then
      match a.decodedText with
      | some t => if t ≠ "" then some t else none
      | none => none
    else none

/-- Model of `detect_watermark_robust` (detector.py lines 289-432) from
the point where the image has been loaded: returns
`(has_watermark, confidence, decoded_content, decoding_attempts)`. -/
def detect_watermark_robust (oracle : Nat → DecodeOut) (watermark : Option String)
    (hint : Option Nat) : Bool × ℚ × Option String × List Attempt :=
  let ls := testLengths watermark hint
  let res := ls.foldl
    (fun acc L =>
      let p := probeAttempt oracle watermark L
      (updBest acc.1 p.2, acc.2 ++ [p.1]))
    ((none : Option (ℚ × String × Nat)), ([] : List Attempt))
  match res.1 with
  | some (c, t, _) => (true, c, some t, res.2)
  | none =>
    match firstSuccessText res.2 with
    | some t => (false, 0, some t, res.2)
    | none => (false, 0, none, res.2)

/-- Model of `range(8, min(max_length, 256), 8)` (all multiples of 8
strictly below the bound; the bound never exceeds 256, so 32 slots
suffice). -/
def rangeStep8 (m : Nat) : List Nat :=
  (List.range 32).filterMap fun k => if 8 * (k + 1) < m then some (8 * (k + 1)) else none

/-- The probe lengths of `extract_any_watermark` before the loop's bound
check: common lengths united with every multiple of 8 below
`min(max_length, 256)`, sorted and deduplicated. -/
def scanLengths (maxLen : Nat) : List Nat :=
  sortedDedup ([32, 64, 96, 128, 160, 192, 224, 256] ++ rangeStep8 (min maxLen 256))

/-- The three sentinel control characters `'\x00\xff\x7f'`. -/
def sentinelChars : List Char :=
  [Char.ofNat 0, Char.ofNat 255, Char.ofNat 127]

/-- One scan result `{'length', 'content', 'raw_bytes'}`. -/
structure ScanEntry where
  length : Nat
  content : String
  rawBytes : List Nat
deriving DecidableEq

/-- The degenerate all-0xFF hex string of `n` bytes (`'ff' * n`). -/
def ffHex (n : Nat) : String :=
  String.join (List.replicate n "ff")

/-- The body of one iteration of the probing loop of
`extract_any_watermark` (detector.py lines 489-515): the candidate
appended at one length, if any — decoder failures are skipped, plausible
UTF-8 text is accepted, and otherwise a hex fallback is accepted unless
it is the degenerate all-0xFF string. -/
def scanEntryAt (oracle : Nat → DecodeOut) (L : Nat) : List ScanEntry :=
  match oracle L with
  | .err => []
  | .null => []
  | .ok bytes =>
    match utf8Decode bytes with
    | some s =>
      if pyStrip s ≠ "" ∧ s.data.all (fun c => c.toNat < 128) ∧
          ¬(s.data.all (· ∈ sentinelChars)) then
        [{ length := L, content := s, rawBytes := bytes }]
      else []
    | none =>
      if bytesHex bytes ≠ "" ∧ bytesHex bytes ≠ ffHex (L / 8) then
        [{ length := L, content := "[HEX] " ++ bytesHex bytes, rawBytes := bytes }]
      else []

/-- The probing loop of `extract_any_watermark` (detector.py lines
485-515): stops at the first length above the bound and collects the
per-length candidates. -/
def scanLoop (oracle : Nat → DecodeOut) (maxLen : Nat) : List Nat → List ScanEntry
  | [] => []
  | L :: rest =>
    if maxLen < L then []
    else scanEntryAt oracle L ++ scanLoop oracle maxLen rest

/-- Model of `extract_any_watermark` (detector.py lines 463-517) from the
point where the image has been loaded. -/
def extract_any_watermark (oracle : Nat → DecodeOut) (maxLen : Nat) : List ScanEntry :=
  scanLoop oracle maxLen (scanLengths maxLen)

/-! Supporting lemmas. -/

theorem dpCells_length (a : Char) :
    ∀ (bs : List Char) (diag : Nat) (pr : List Nat) (left : Nat),
      bs.length ≤ pr.length → (dpCells a bs diag pr left).length = bs.length := by
  intro bs
  induction bs with
  | nil => intro diag pr left _; simp [dpCells]
  | cons b bs ih =>
    intro diag pr left h
    cases pr with
    | nil => simp at h
    | cons up pr =>
      simp only [dpCells, List.length_cons]
      rw [ih up pr _ (by simpa using h)]

theorem dpCells_getElem_self (a : Char) :
    ∀ (bs : List Char) (diag : Nat) (pr : List Nat) (left k : Nat),
      bs[k]? = some a → (diag :: pr)[k]? = some 0 → bs.length ≤ pr.length →
      (dpCells a bs diag pr left)[k]? = some 0 := by
  intro bs
  induction bs with
  | nil => intro diag pr left k hb _ _; simp at hb
  | cons b bs ih =>
    intro diag pr left k hb hd hlen
    cases pr with
    | nil => simp at hlen
    | cons up pr =>
      cases k with
      | zero =>
        simp only [List.getElem?_cons_zero, Option.some_inj] at hb hd
        simp [dpCells, hb, hd]
      | succ k =>
        simp only [List.getElem?_cons_succ] at hb hd
        simpa [dpCells] using ih up pr _ k hb hd (by simpa using hlen)

theorem dpRows_self :
    ∀ (t s₁ s₂ : List Char) (prev : List Nat) (i : Nat),
      t = s₁ ++ s₂ → i = s₁.length → prev.length = t.length + 1 → prev[i]? = some 0 →
      (dpRows t s₂ prev i)[t.length]? = some 0 ∧ (dpRows t s₂ prev i).length = t.length + 1 := by
  intro t s₁ s₂
  induction s₂ generalizing s₁ with
  | nil =>
    intro prev i ht hi hlen hget
    have hst : s₁ = t := by simpa using ht.symm
    subst hst
    simp only [dpRows]
    exact ⟨hi ▸ hget, hlen⟩
  | cons a s₂ ih =>
    intro prev i ht hi hlen hget
    cases prev with
    | nil => simp at hlen
    | cons p0 pr =>
      have hta : t[i]? = some a := by
        subst ht hi
        rw [List.getElem?_append_right (Nat.le_refl _)]
        simp
      have hprlen : pr.length = t.length := by simpa using hlen
      have hcell : (dpCells a t p0 pr (i + 1))[i]? = some 0 :=
        dpCells_getElem_self a t p0 pr (i + 1) i hta hget (le_of_eq hprlen.symm)
      have hrowlen : ((i + 1) :: dpCells a t p0 pr (i + 1)).length = t.length + 1 := by
        simp [dpCells_length a t p0 pr (i + 1) (le_of_eq hprlen.symm)]
      have hrowget : ((i + 1) :: dpCells a t p0 pr (i + 1))[i + 1]? = some 0 := by
        simpa using hcell
      have := ih (s₁ ++ [a]) ((i + 1) :: dpCells a t p0 pr (i + 1)) (i + 1)
        (by simp [ht]) (by simp [hi]) hrowlen hrowget
      simpa [dpRows] using this

theorem editDistance_self (l : List Char) : editDistance l l = 0 := by
  have h := dpRows_self l [] l (List.range (l.length + 1)) 0 rfl rfl (by simp)
    (by simp)
  unfold editDistance
  rcases h with ⟨hget, hlen⟩
  have hlast : (dpRows l l (List.range (l.length + 1)) 0).getLast? = some 0 := by
    rw [List.getLast?_eq_getElem?, hlen]
    simpa using hget
  simp [List.getLastD_eq_getLast?, hlast]

theorem mem_insDedup {x a : Nat} : ∀ {l : List Nat}, x ∈ insDedup a l ↔ x = a ∨ x ∈ l := by
  intro l
  induction l with
  | nil => simp [insDedup]
  | cons b t ih =>
    by_cases h1 : a < b
    · simp [insDedup, h1]
    · by_cases h2 : a = b
      · subst h2
        simp only [insDedup, if_neg h1, if_pos rfl]
        constructor
        · intro h; exact Or.inr h
        · rintro (rfl | h)
          · exact List.mem_cons_self _ _
          · exact h
      · simp only [insDedup, if_neg h1, if_neg h2, List.mem_cons, ih]
        tauto

theorem mem_sortedDedup {x : Nat} : ∀ {l : List Nat}, x ∈ sortedDedup l ↔ x ∈ l := by
  intro l
  induction l with
  | nil => simp [sortedDedup]
  | cons a t ih =>
    simp only [sortedDedup, List.foldr_cons, List.mem_cons]
    rw [show t.foldr insDedup [] = sortedDedup t from rfl] at *
    rw [mem_insDedup, ih]

theorem sorted_insDedup {a : Nat} :
    ∀ {l : List Nat}, l.Sorted (· < ·) → (insDedup a l).Sorted (· < ·) := by
  intro l
  induction l with
  | nil => intro _; simp [insDedup]
  | cons b t ih =>
    intro hs
    rcases List.sorted_cons.mp hs with ⟨hb, ht⟩
    by_cases h1 : a < b
    · simp only [insDedup, if_pos h1]
      exact List.sorted_cons.mpr ⟨by
        intro x hx
        rcases List.mem_cons.mp hx with rfl | hx
        · exact h1
        · exact h1.trans (hb x hx), hs⟩
    · by_cases h2 : a = b
      · simpa [insDedup, if_neg h1, h2] using hs
      · simp only [insDedup, if_neg h1, if_neg h2]
        refine List.sorted_cons.mpr ⟨?_, ih ht⟩
        intro x hx
        rcases mem_insDedup.mp hx with rfl | hx
        · omega
        · exact hb x hx

theorem sorted_sortedDedup : ∀ (l : List Nat), (sortedDedup l).Sorted (· < ·) := by
  intro l
  induction l with
  | nil => simp [sortedDedup]
  | cons a t ih => exact sorted_insDedup ih

theorem mem_appendCommons {x : Nat} :
    ∀ (cl : List Nat) (acc : List Nat),
      x ∈ cl.foldl (fun acc c => if c ∈ acc then acc else acc ++ [c]) acc ↔
        x ∈ acc ∨ x ∈ cl := by
  intro cl
  induction cl with
  | nil => intro acc; simp
  | cons c cl ih =>
    intro acc
    simp only [List.foldl_cons, List.mem_cons]
    by_cases h : c ∈ acc
    · rw [if_pos h, ih]
      constructor
      · tauto
      · rintro (hx | rfl | hx) <;> tauto
    · rw [if_neg h, ih]
      simp only [List.mem_append, List.mem_singleton]
      tauto

/-- Membership in the generated candidate list: the sweep entries, the
hint (when truthy) and the common lengths, and nothing else. -/
theorem mem_testLengths {x : Nat} {watermark : Option String} {hint : Option Nat} :
    x ∈ testLengths watermark hint ↔
      (x ∈ (match watermark with
        | some w => if w = "" then [] else sweepLengths (byteLen w * 8)
        | none => ([] : List Nat)) ∨
       (∃ h, hint = some h ∧ h ≠ 0 ∧ x = h)) ∨ x ∈ commonLengths := by
  unfold testLengths
  rw [mem_sortedDedup, mem_appendCommons]
  cases hint with
  | none => simp
  | some h =>
    by_cases hh : h = 0
    · subst hh; simp
    · simp only [if_neg hh, List.mem_cons]
      constructor
      · rintro ((rfl | hx) | hx)
        · exact Or.inl (Or.inr ⟨_, rfl, hh, rfl⟩)
        · exact Or.inl (Or.inl hx)
        · exact Or.inr hx
      · rintro ((hx | ⟨h2, heq, _, rfl⟩) | hx)
        · exact Or.inl (Or.inr hx)
        · cases heq; exact Or.inl (Or.inl rfl)
        · exact Or.inr hx

theorem charUtf8_ne_nil (c : Char) : charUtf8 c ≠ [] := by
  unfold charUtf8
  dsimp only
  split <;> try simp
  split <;> try simp
  split <;> simp

theorem byteLen_pos {w : String} (h : w ≠ "") : 0 < byteLen w := by
  have hdata : w.data ≠ [] := by
    intro hd
    exact h (by cases w; simp_all)
  unfold byteLen strUtf8
  cases hw : w.data with
  | nil => exact absurd hw hdata
  | cons c rest =>
    simp only [List.flatMap_cons, List.length_append]
    have := charUtf8_ne_nil c
    have : 0 < (charUtf8 c).length := List.length_pos.mpr this
    omega

theorem similarity_nonneg (a b : String) : 0 ≤ calculate_similarity a b := by
  unfold calculate_similarity
  split
  · exact le_refl 0
  · dsimp only
    split
    · exact zero_le_one
    · exact le_max_left 0 _

theorem similarity_le_one (a b : String) : calculate_similarity a b ≤ 1 := by
  unfold calculate_similarity
  split
  · exact zero_le_one
  · dsimp only
    split
    · exact le_refl 1
    · refine max_le zero_le_one ?_
      have h1 : (0 : ℚ) ≤ (editDistance (pyLower a).data (pyLower b).data : ℚ) /
          ((max a.length b.length : Nat) : ℚ) :=
        div_nonneg (by positivity) (by positivity)
      linarith

theorem printableFrac_nonneg (s : String) : 0 ≤ printableFrac s := by
  unfold printableFrac
  split
  · exact le_refl 0
  · exact div_nonneg (by positivity) (by positivity)

theorem printableFrac_le_one (s : String) : printableFrac s ≤ 1 := by
  unfold printableFrac
  split
  · exact zero_le_one
  · next h =>
    have hlen : 0 < s.data.length := by
      cases s with
      | mk l =>
        cases l with
        | nil => exact absurd rfl h
        | cons c t => simp
    rw [div_le_one (by exact_mod_cast hlen)]
    exact_mod_cast s.data.countP_le_length _

theorem findSome?_some_mem {α β : Type} {f : α → Option β} :
    ∀ {l : List α} {b : β}, l.findSome? f = some b → ∃ a ∈ l, f a = some b := by
  intro l
  induction l with
  | nil => intro b h; simp [List.findSome?] at h
  | cons a t ih =>
    intro b h
    rw [List.findSome?_cons] at h
    cases hf : f a with
    | some v =>
      rw [hf] at h
      exact ⟨a, List.mem_cons_self _ _, hf.trans h⟩
    | none =>
      rw [hf] at h
      obtain ⟨x, hx, hfx⟩ := ih h
      exact ⟨x, List.mem_cons_of_mem _ hx, hfx⟩

theorem findSome?_isSome_of_mem {α β : Type} {f : α → Option β} {l : List α} {a : α}
    (ha : a ∈ l) (hf : (f a).isSome) : (l.findSome? f).isSome := by
  induction l with
  | nil => simp at ha
  | cons x t ih =>
    rw [List.findSome?_cons]
    cases hx : f x with
    | some v => simp
    | none =>
      rcases List.mem_cons.mp ha with rfl | ha2
      · rw [hx] at hf; simp at hf
      · exact ih ha2

theorem foldl_attempts (o : Nat → DecodeOut) (w : Option String) :
    ∀ (ls : List Nat) (b : Option (ℚ × String × Nat)) (as : List Attempt),
      (ls.foldl (fun acc L =>
          let p := probeAttempt o w L
          (updBest acc.1 p.2, acc.2 ++ [p.1])) (b, as)).2 =
        as ++ ls.map (fun L => (probeAttempt o w L).1) := by
  intro ls
  induction ls with
  | nil => intro b as; simp
  | cons L ls ih =>
    intro b as
    simp only [List.foldl_cons, List.map_cons]
    rw [ih]
    simp

theorem detect_result_attempts (o : Nat → DecodeOut) (w : Option String) (h : Option Nat) :
    (detect_watermark_robust o w h).2.2.2 =
      (testLengths w h).map (fun L => (probeAttempt o w L).1) := by
  unfold detect_watermark_robust
  dsimp only
  split
  · next heq => simpa using foldl_attempts o w (testLengths w h) none []
  · split
    · next heq => simpa using foldl_attempts o w (testLengths w h) none []
    · next heq => simpa using foldl_attempts o w (testLengths w h) none []

theorem probeAttempt_length (o : Nat → DecodeOut) (w : Option String) (L : Nat) :
    ((probeAttempt o w L).1).length = L := by
  unfold probeAttempt
  cases o L with
  | err => rfl
  | null => rfl
  | ok bytes =>
    dsimp only
    split
    · split <;> rfl
    · rfl

theorem probeAttempt_failed (o : Nat → DecodeOut) (w : Option String) (L : Nat)
    (hfail : o L = .err ∨ o L = .null) : (probeAttempt o w L).1 = failedAttempt L := by
  unfold probeAttempt
  rcases hfail with h | h <;> rw [h]

theorem probeAttempt_no_watermark (o : Nat → DecodeOut) (L : Nat) :
    (probeAttempt o none L).2 = none := by
  unfold probeAttempt
  cases o L with
  | err => rfl
  | null => rfl
  | ok bytes => rfl

theorem foldl_best_no_watermark (o : Nat → DecodeOut) :
    ∀ (ls : List Nat) (b : Option (ℚ × String × Nat)) (as : List Attempt),
      (ls.foldl (fun acc L =>
          let p := probeAttempt o none L
          (updBest acc.1 p.2, acc.2 ++ [p.1])) (b, as)).1 = b := by
  intro ls
  induction ls with
  | nil => intro b as; rfl
  | cons L ls ih =>
    intro b as
    simp only [List.foldl_cons]
    rw [show updBest b (probeAttempt o none L).2 = b by
      rw [probeAttempt_no_watermark]; cases b <;> rfl]
    exact ih _ _

theorem natDiv_nonneg (a b : Nat) : (0 : ℚ) ≤ (a : ℚ) / (b : ℚ) :=
  div_nonneg (by positivity) (by positivity)

theorem natDiv_le_one {a b : Nat} (h : a ≤ b) : (a : ℚ) / (b : ℚ) ≤ 1 := by
  rcases Nat.eq_zero_or_pos b with rfl | hb
  · simp
  · rw [div_le_one (by exact_mod_cast hb)]
    exact_mod_cast h

theorem div_castMax_nonneg (x a b : Nat) : (0 : ℚ) ≤ (x : ℚ) / ((a : ℚ) ⊔ (b : ℚ)) :=
  div_nonneg (by positivity) (le_trans (Nat.cast_nonneg a) (le_max_left _ _))

theorem div_castMax_le_one {x a b : Nat} (h : x ≤ a) :
    (x : ℚ) / ((a : ℚ) ⊔ (b : ℚ)) ≤ 1 := by
  rw [← Nat.cast_max]
  exact natDiv_le_one (le_trans h (le_max_left _ _))

/-- The confidence returned by the cascade is always one of a small family
of shapes: a constant, an edit-distance similarity, or a weighted count
fraction. -/
def confShape (e d : String) (c : ℚ) : Prop :=
  c = 0 ∨ c = 1 ∨ c = 19/20 ∨ c = calculate_similarity e d ∨
    c = calculate_similarity (clean_text e) (clean_text d) ∨
    c = calculate_similarity e d * (4/5) ∨
    ∃ a b : Nat, a ≤ b ∧ (c = (a : ℚ) / (b : ℚ) * (4/5) ∨ c = (a : ℚ) / (b : ℚ) * (7/10))

theorem fuzzy_conf_shape (e d : String) (thr : ℚ) :
    confShape e d ((fuzzy_watermark_match e d thr).2.1) := by
  unfold fuzzy_watermark_match confShape
  repeat' split
  all_goals
    first
      | exact Or.inl rfl
      | exact Or.inr (Or.inl rfl)
      | exact Or.inr (Or.inr (Or.inl rfl))
      | exact Or.inr (Or.inr (Or.inr (Or.inl rfl)))
      | exact Or.inr (Or.inr (Or.inr (Or.inr (Or.inl rfl))))
      | exact Or.inr (Or.inr (Or.inr (Or.inr (Or.inr (Or.inl rfl)))))
      | exact Or.inr (Or.inr (Or.inr (Or.inr (Or.inr (Or.inr
          ⟨_, _, List.countP_le_length _, Or.inl rfl⟩)))))
      | exact Or.inr (Or.inr (Or.inr (Or.inr (Or.inr (Or.inr
          ⟨_, _, le_trans (List.length_filter_le _ _) (le_max_left _ _), Or.inr rfl⟩)))))

theorem fuzzy_conf_nonneg (e d : String) (thr : ℚ) :
    0 ≤ (fuzzy_watermark_match e d thr).2.1 := by
  have h := fuzzy_conf_shape e d thr
  unfold confShape at h
  have hs := similarity_nonneg e d
  have hc := similarity_nonneg (clean_text e) (clean_text d)
  rcases h with h | h | h | h | h | h | ⟨a, b, hab, h | h⟩
  all_goals rw [h]
  all_goals
    first
      | exact hs
      | exact hc
      | nlinarith
      | exact mul_nonneg (natDiv_nonneg _ _) (by norm_num)

theorem fuzzy_conf_le_one (e d : String) (thr : ℚ) :
    (fuzzy_watermark_match e d thr).2.1 ≤ 1 := by
  have h := fuzzy_conf_shape e d thr
  unfold confShape at h
  have hs := similarity_le_one e d
  have hs0 := similarity_nonneg e d
  have hc := similarity_le_one (clean_text e) (clean_text d)
  rcases h with h | h | h | h | h | h | ⟨a, b, hab, h | h⟩
  all_goals rw [h]
  all_goals
    first
      | exact hs
      | exact hc
      | nlinarith
      | exact mul_le_one₀ (natDiv_le_one hab) (by norm_num) (by norm_num)

theorem sigLenScore_bounds (sig : Signature) (t : String) :
    0 ≤ sigLenScore sig t ∧ sigLenScore sig t ≤ 1/5 := by
  unfold sigLenScore
  split
  · have habs : (((t.length : Int) - (sig.length : Int)).natAbs : Nat) ≤
        max t.length sig.length := by omega
    have h1 := natDiv_le_one (b := max t.length sig.length) habs
    have h0 := natDiv_nonneg (((t.length : Int) - (sig.length : Int)).natAbs)
      (max t.length sig.length)
    constructor <;> nlinarith
  · norm_num

theorem sigCharScore_bounds (sig : Signature) (t : String) :
    0 ≤ sigCharScore sig t ∧ sigCharScore sig t ≤ 3/10 := by
  unfold sigCharScore
  split
  · have h1 : ((sig.charSet.filter (· ∈ (pyLower t).data.dedup)).length : ℚ) /
        (sig.charSet.length : ℚ) ≤ 1 :=
      natDiv_le_one (List.length_filter_le _ _)
    have h0 := natDiv_nonneg (sig.charSet.filter (· ∈ (pyLower t).data.dedup)).length
      sig.charSet.length
    constructor <;> nlinarith
  · norm_num

theorem sigPatScore_bounds (sig : Signature) (t : String) :
    0 ≤ sigPatScore sig t ∧ sigPatScore sig t ≤ 2/5 := by
  unfold sigPatScore
  split
  · have h1 : ((patMatches sig t : Nat) : ℚ) / (sig.patterns.length : ℚ) ≤ 1 :=
      natDiv_le_one (by unfold patMatches; exact List.countP_le_length _)
    have h0 := natDiv_nonneg (patMatches sig t) sig.patterns.length
    constructor <;> nlinarith
  · norm_num

theorem byteSim_bounds (sig : Signature) (bs : List Nat) :
    0 ≤ byteSim sig bs ∧ byteSim sig bs ≤ 1 := by
  unfold byteSim
  split
  · have hcount : ((bs.zip (strUtf8 sig.text)).countP fun p => p.1 = p.2) ≤
        min bs.length (strUtf8 sig.text).length := by
      calc ((bs.zip (strUtf8 sig.text)).countP fun p => p.1 = p.2) ≤
          (bs.zip (strUtf8 sig.text)).length := List.countP_le_length _
        _ = min bs.length (strUtf8 sig.text).length := List.length_zip _ _
    exact ⟨natDiv_nonneg _ _, natDiv_le_one hcount⟩
  · norm_num

theorem sigByteScore_bounds (sig : Signature) (bs : List Nat) :
    0 ≤ sigByteScore sig bs ∧ sigByteScore sig bs ≤ 1/10 := by
  unfold sigByteScore
  split
  · have h := byteSim_bounds sig bs
    constructor <;> nlinarith [h.1, h.2]
  · norm_num

theorem sig_conf_nonneg (sig : Signature) (bs : List Nat) (t : String) :
    0 ≤ (match_by_signature sig bs t).2.1 := by
  unfold match_by_signature
  split
  · norm_num
  · have h1 := sigLenScore_bounds sig t
    have h2 := sigCharScore_bounds sig t
    have h3 := sigPatScore_bounds sig t
    have h4 := sigByteScore_bounds sig bs
    unfold sigTotal
    dsimp only
    nlinarith [h1.1, h2.1, h3.1, h4.1]

theorem sig_conf_le_one (sig : Signature) (bs : List Nat) (t : String) :
    (match_by_signature sig bs t).2.1 ≤ 1 := by
  unfold match_by_signature
  split
  · norm_num
  · have h1 := sigLenScore_bounds sig t
    have h2 := sigCharScore_bounds sig t
    have h3 := sigPatScore_bounds sig t
    have h4 := sigByteScore_bounds sig bs
    unfold sigTotal
    dsimp only
    nlinarith [h1.2, h2.2, h3.2, h4.2]

theorem strictPhase_conf {bs : List Nat} {d e : String} {c : ℚ}
    (h : strictPhase bs = some (d, e, c)) : ∃ d2, c = printableFrac d2 := by
  obtain ⟨enc, _, hf⟩ := findSome?_some_mem h
  revert hf
  cases hdec : decodeStrict enc bs with
  | none => intro hf; simp [hdec] at hf
  | some d2 =>
    intro hf
    simp only [hdec] at hf
    split at hf
    · simp only [Option.some.injEq, Prod.mk.injEq] at hf
      exact ⟨d2, hf.2.2.symm⟩
    · exact absurd hf (by simp)

theorem ignorePhase_conf {bs : List Nat} {d e : String} {c : ℚ}
    (h : ignorePhase bs = some (d, e, c)) : ∃ d2, c = printableFrac d2 * (1/2) := by
  obtain ⟨enc, _, hf⟩ := findSome?_some_mem h
  revert hf
  dsimp only
  split
  · intro hf
    simp only [Option.some.injEq, Prod.mk.injEq] at hf
    exact ⟨decodeIgnore enc bs, hf.2.2.symm⟩
  · intro hf; simp at hf

theorem text_conf_nonneg (bs : List Nat) : 0 ≤ (bytes_to_text_smart bs).2.2 := by
  unfold bytes_to_text_smart
  split
  · norm_num
  · split
    · next d e c heq =>
      obtain ⟨d2, rfl⟩ := strictPhase_conf heq
      exact printableFrac_nonneg d2
    · split
      · next d e c heq =>
        obtain ⟨d2, rfl⟩ := ignorePhase_conf heq
        have := printableFrac_nonneg d2
        nlinarith
      · split <;> norm_num

theorem text_conf_le_one (bs : List Nat) : (bytes_to_text_smart bs).2.2 ≤ 1 := by
  unfold bytes_to_text_smart
  split
  · norm_num
  · split
    · next d e c heq =>
      obtain ⟨d2, rfl⟩ := strictPhase_conf heq
      exact printableFrac_le_one d2
    · split
      · next d e c heq =>
        obtain ⟨d2, rfl⟩ := ignorePhase_conf heq
        have h1 := printableFrac_le_one d2
        have h0 := printableFrac_nonneg d2
        nlinarith
      · split <;> norm_num

/-! Claim theorems. -/

/-- Membership characterization with a present expected text (the outer
match reduces definitionally). -/
theorem mem_testLengths_some {x : Nat} {w : String} {hint : Option Nat} :
    x ∈ testLengths (some w) hint ↔
      (x ∈ (if w = "" then [] else sweepLengths (byteLen w * 8)) ∨
        (∃ h, hint = some h ∧ h ≠ 0 ∧ x = h)) ∨ x ∈ commonLengths :=
  mem_testLengths

/-- Every sweep entry lies in the clipped range. -/
theorem mem_sweepLengths_bounds {x base : Nat} (hx : x ∈ sweepLengths base) :
    8 ≤ x ∧ x ≤ 512 := by
  obtain ⟨off, _, heq⟩ := List.mem_filterMap.mp hx
  split at heq
  · next hcond =>
    simp only [Option.some_inj] at heq
    omega
  · exact absurd heq (by simp)

/-- The base length itself is swept (offset 0) whenever it is in range. -/
theorem base_mem_sweepLengths {base : Nat} (h8 : 8 ≤ base) (h512 : base ≤ 512) :
    base ∈ sweepLengths base := by
  apply List.mem_filterMap.mpr
  refine ⟨0, by decide, ?_⟩
  rw [if_pos (by omega)]
  simp

/-- A decoder oracle that returns the same byte string at every declared
length (used for concrete detection runs). -/
def constOracle (bs : List Nat) : Nat → DecodeOut := fun _ => .ok bs

/-- C9: the edit-distance similarity of every string with itself is 1.0
when the string is non-empty, and 0.0 when it is empty (the both-empty
case gives 0.0 by convention, not 1.0). -/
theorem C9_similarity_self (s : String) :
    calculate_similarity s s = if s = "" then 0 else 1 := by
  by_cases h : s = ""
  · subst h
    simp [calculate_similarity]
  · rw [if_neg h]
    unfold calculate_similarity
    rw [if_neg (by simp [h])]
    simp [editDistance_self]

/-- C6: Text Recovery returns a non-null text exactly on non-empty byte
input: the first component is `none` iff the input is empty, and the empty
input yields `(none, none, 0.0)`. -/
theorem C6_text_recovery_total (bs : List Nat) :
    ((bytes_to_text_smart bs).1 = none ↔ bs = []) ∧
      bytes_to_text_smart [] = (none, none, 0) := by
  refine ⟨⟨fun h => ?_, fun h => by subst h; rfl⟩, rfl⟩
  by_contra hne
  unfold bytes_to_text_smart at h
  rw [if_neg hne] at h
  split at h
  · simp at h
  · split at h
    · simp at h
    · split at h <;> simp at h

/-- C2 counterexample: at expected `"abcdX!"` and decoded `"abcdY?"`, the
cascade returns at rule 3 with confidence 2/3, although the later
cleaned-similarity signal (rule 4) equals 4/5 > 2/3; the returned
confidence is therefore not the strongest signal among the cascade's
signals, and no later signal ever raises it. -/
theorem C2_counterexample :
    fuzzy_watermark_match "abcdX!" "abcdY?" (3/5) = (true, 2/3, "高相似度匹配") ∧
      calculate_similarity (clean_text "abcdX!") (clean_text "abcdY?") = 4/5 ∧
      (2/3 : ℚ) < 4/5 := by
  with_unfolding_all decide

/-- C2 amended: the first satisfied rule determines `is_match`, `reason`
and also `confidence`: when the edit-distance rule (rule 3) is the first
satisfied rule, the returned triple is exactly
`(true, similarity, rule-3 reason)`, independent of any later signal. -/
theorem C2_first_rule_confidence (e d : String) (thr : ℚ)
    (h0 : d ≠ "") (h1 : d ≠ e)
    (h2 : ¬(clean_text d = clean_text e ∧ clean_text e ≠ ""))
    (h3 : calculate_similarity e d ≥ thr) :
    fuzzy_watermark_match e d thr = (true, calculate_similarity e d, "高相似度匹配") := by
  unfold fuzzy_watermark_match
  rw [if_neg h0, if_neg h1, if_neg h2, if_pos h3]

/-- Witness for C2: the amended statement instantiated at the
counterexample input. -/
theorem C2_first_rule_confidence_witness :
    fuzzy_watermark_match "abcdX!" "abcdY?" (3/5) =
      (true, calculate_similarity "abcdX!" "abcdY?", "高相似度匹配") :=
  C2_first_rule_confidence "abcdX!" "abcdY?" (3/5)
    (by decide) (by decide) (by with_unfolding_all decide) (by with_unfolding_all decide)

/-- C4 counterexample: with a hint of 100 bits and no expected text, the
generated candidate list is fully sorted ascending, so 100 is probed
after 32, 64 and 96 rather than first. -/
theorem C4_counterexample :
    testLengths none (some 100) = [32, 64, 96, 100, 112, 128, 160, 192, 224, 256] ∧
      (testLengths none (some 100)).head? ≠ some 100 := by
  decide

/-- C4 amended: a truthy hint is always among the candidates, but the
final candidate list is strictly increasing (deduplicated, ascending), so
the hint is probed at its numeric position, with no priority. -/
theorem C4_hint_included_sorted (w : Option String) (h : Nat) (hh : h ≠ 0) :
    h ∈ testLengths w (some h) ∧ (testLengths w (some h)).Sorted (· < ·) := by
  constructor
  · exact mem_testLengths.mpr (Or.inl (Or.inr ⟨h, rfl, hh, rfl⟩))
  · unfold testLengths
    exact sorted_sortedDedup _

/-- Witness for C4: the amended statement instantiated at hint 100. -/
theorem C4_hint_included_sorted_witness :
    100 ∈ testLengths none (some 100) ∧ (testLengths none (some 100)).Sorted (· < ·) :=
  C4_hint_included_sorted none 100 (by decide)

/-- C1 counterexample: a complete detection run in which both scorers
match perfectly returns fused confidence 6/5, which exceeds 1.0 — the
source applies no clamping. -/
theorem C1_counterexample :
    (detect_watermark_robust (constOracle [97, 98, 49, 50]) (some "ab12") none).2.1 = 6/5 ∧
      ¬((detect_watermark_robust (constOracle [97, 98, 49, 50]) (some "ab12") none).2.1 ≤ 1) := by
  with_unfolding_all decide

/-- C1 amended: for every attempt on which both scorers run (an expected
text and a recovered text from the byte decoding), the fused confidence
is exactly `max(cascade × readability, signature × readability × 1.2)`
with no clamping; it always lies in `[0, 1.2]` (not `[0, 1]`). -/
theorem C1_fused_bounds (w t : String) (bs : List Nat) (enc : Option String) (tc : ℚ)
    (hrec : bytes_to_text_smart bs = (some t, enc, tc)) :
    fusedConfidence (fuzzy_watermark_match w t (3/5)).2.1
        (match_by_signature (create_watermark_signature w) bs t).2.1 tc =
      max ((fuzzy_watermark_match w t (3/5)).2.1 * tc)
        ((match_by_signature (create_watermark_signature w) bs t).2.1 * tc * (6/5)) ∧
    0 ≤ fusedConfidence (fuzzy_watermark_match w t (3/5)).2.1
        (match_by_signature (create_watermark_signature w) bs t).2.1 tc ∧
    fusedConfidence (fuzzy_watermark_match w t (3/5)).2.1
        (match_by_signature (create_watermark_signature w) bs t).2.1 tc ≤ 6/5 := by
  have htc0 : 0 ≤ tc := by
    have h := text_conf_nonneg bs
    rw [hrec] at h
    exact h
  have htc1 : tc ≤ 1 := by
    have h := text_conf_le_one bs
    rw [hrec] at h
    exact h
  have hf0 := fuzzy_conf_nonneg w t (3/5)
  have hf1 := fuzzy_conf_le_one w t (3/5)
  have hs0 := sig_conf_nonneg (create_watermark_signature w) bs t
  have hs1 := sig_conf_le_one (create_watermark_signature w) bs t
  refine ⟨rfl, ?_, ?_⟩
  · exact le_max_of_le_left (mul_nonneg hf0 htc0)
  · unfold fusedConfidence
    apply max_le
    · nlinarith
    · nlinarith

/-- Witness for C1: the amended statement instantiated at expected
`"ab12"` and the decoder returning exactly its UTF-8 bytes, where the
fused confidence attains the upper bound 6/5. -/
theorem C1_fused_bounds_witness :
    bytes_to_text_smart [97, 98, 49, 50] = (some "ab12", some "utf-8", 1) ∧
      0 ≤ fusedConfidence (fuzzy_watermark_match "ab12" "ab12" (3/5)).2.1
          (match_by_signature (create_watermark_signature "ab12") [97, 98, 49, 50] "ab12").2.1 1 ∧
      fusedConfidence (fuzzy_watermark_match "ab12" "ab12" (3/5)).2.1
          (match_by_signature (create_watermark_signature "ab12") [97, 98, 49, 50] "ab12").2.1 1 ≤
        6/5 :=
  ⟨by with_unfolding_all decide,
    (C1_fused_bounds "ab12" "ab12" [97, 98, 49, 50] (some "utf-8") 1
      (by with_unfolding_all decide)).2⟩

/-- C3 counterexample: with no expected text and no hint, and a decoder
that succeeds with `"ABCD"` everywhere, the orchestrator probes the full
common set `[32, 64, 96, 112, 128, 160, 192, 224, 256]` — not
`{32, 64, 16, 8}`, and without stopping at the first success — and
returns `has_watermark = False` with confidence `0.0` (not null/null). -/
theorem C3_counterexample :
    (detect_watermark_robust (constOracle [65, 66, 67, 68]) none none).1 = false ∧
      (detect_watermark_robust (constOracle [65, 66, 67, 68]) none none).2.1 = 0 ∧
      (detect_watermark_robust (constOracle [65, 66, 67, 68]) none none).2.2.1 = some "ABCD" ∧
      ((detect_watermark_robust (constOracle [65, 66, 67, 68]) none none).2.2.2).map
          (fun a => a.length) =
        [32, 64, 96, 112, 128, 160, 192, 224, 256] := by
  with_unfolding_all decide

/-- With no expected text, the best-result tracking never fires: the
result is `(False, 0.0, first successful recovery, all attempts)`. -/
theorem detect_no_watermark (oracle : Nat → DecodeOut) (h : Option Nat) :
    detect_watermark_robust oracle none h =
      (false, 0,
        firstSuccessText ((testLengths none h).map (fun L => (probeAttempt oracle none L).1)),
        (testLengths none h).map (fun L => (probeAttempt oracle none L).1)) := by
  unfold detect_watermark_robust
  dsimp only
  rw [foldl_best_no_watermark oracle (testLengths none h) none []]
  rw [foldl_attempts oracle none (testLengths none h) none []]
  simp only [List.nil_append]
  cases hfs : firstSuccessText ((testLengths none h).map fun L => (probeAttempt oracle none L).1) <;>
    simp [hfs]

/-- C3 amended: for every decoder oracle, a detection call with no
expected text and no hint probes exactly the sorted common lengths
`[32, 64, 96, 112, 128, 160, 192, 224, 256]` (every one of them — there
is no early stop), and returns `has_watermark = false`,
`confidence = 0.0`, and the first successful non-empty recovery as the
decoded text. -/
theorem C3_no_expectation (oracle : Nat → DecodeOut) :
    (detect_watermark_robust oracle none none).1 = false ∧
      (detect_watermark_robust oracle none none).2.1 = 0 ∧
      (detect_watermark_robust oracle none none).2.2.1 =
        firstSuccessText ((detect_watermark_robust oracle none none).2.2.2) ∧
      ((detect_watermark_robust oracle none none).2.2.2).map (fun a => a.length) =
        [32, 64, 96, 112, 128, 160, 192, 224, 256] := by
  rw [detect_no_watermark oracle none]
  refine ⟨rfl, rfl, rfl, ?_⟩
  rw [List.map_map]
  have hcomp : ((fun a => a.length) ∘ fun L => (probeAttempt oracle none L).1) = fun L => L := by
    funext L
    exact probeAttempt_length oracle none L
  rw [hcomp]
  decide

/-- C5 counterexample: the claim fails in both halves.  A hint of 1000
is inserted unvalidated, so a generated length exceeds 512; and for a
65-byte expected text the base length 520 exceeds 512 and is therefore
never generated. -/
theorem C5_counterexample :
    (1000 ∈ testLengths (some "hi") (some 1000) ∧ ¬(1000 ≤ 512)) ∧
      (byteLen ⟨List.replicate 65 'A'⟩ * 8 = 520 ∧
        520 ∉ testLengths (some ⟨List.replicate 65 'A'⟩) none) := by
  decide

/-- C5 amended: with no hint, every generated candidate length lies in
`[8, 512]`, and the base length `n*8` is present whenever it does not
exceed 512 (for longer texts it is clipped away); a supplied hint is
inserted without any range validation. -/
theorem C5_no_hint_bounds (w : String) (hw : w ≠ "") :
    (∀ L ∈ testLengths (some w) none, 8 ≤ L ∧ L ≤ 512) ∧
      (byteLen w * 8 ≤ 512 → byteLen w * 8 ∈ testLengths (some w) none) := by
  constructor
  · intro L hL
    rcases mem_testLengths_some.mp hL with (hsw | ⟨h2, heq, _, _⟩) | hc
    · rw [if_neg hw] at hsw
      exact mem_sweepLengths_bounds hsw
    · exact absurd heq (by simp)
    · have hall : ∀ x ∈ commonLengths, 8 ≤ x ∧ x ≤ 512 := by decide
      exact hall L hc
  · intro hbase
    apply mem_testLengths_some.mpr
    refine Or.inl (Or.inl ?_)
    rw [if_neg hw]
    have h8 : 8 ≤ byteLen w * 8 := by
      have := byteLen_pos hw
      omega
    exact base_mem_sweepLengths h8 hbase

/-- Witness for C5: the amended statement at `"hi"` (byte length 2): the
base length 16 is generated and the concrete bound holds at length 64. -/
theorem C5_no_hint_bounds_witness :
    (8 ≤ 64 ∧ 64 ≤ 512) ∧ byteLen "hi" * 8 ∈ testLengths (some "hi") none :=
  ⟨(C5_no_hint_bounds "hi" (by decide)).1 64 (by decide),
    (C5_no_hint_bounds "hi" (by decide)).2 (by decide)⟩

/-- An oracle that raises at length 32, returns null at length 64, and
decodes `"hi"` elsewhere. -/
def mixedOracle : Nat → DecodeOut :=
  fun L => if L = 32 then .err else if L = 64 then .null else .ok [104, 105]

/-- C8: a decoder failure (exception or null) at one candidate length is
recorded as a failed attempt, and every candidate length is still probed
(the attempts list covers the full candidate list in order, so the
failure never aborts the loop). -/
theorem C8_probe_isolation (oracle : Nat → DecodeOut) (w : Option String) (h : Option Nat)
    (L : Nat) (hmem : L ∈ testLengths w h) (hfail : oracle L = .err ∨ oracle L = .null) :
    ((detect_watermark_robust oracle w h).2.2.2).map (fun a => a.length) = testLengths w h ∧
      failedAttempt L ∈ (detect_watermark_robust oracle w h).2.2.2 := by
  constructor
  · rw [detect_result_attempts, List.map_map]
    have hcomp : ((fun a => a.length) ∘ fun L2 => (probeAttempt oracle w L2).1) =
        fun L2 => L2 := by
      funext L2
      exact probeAttempt_length oracle w L2
    rw [hcomp]
    simp
  · rw [detect_result_attempts]
    have hm := List.mem_map_of_mem (fun L2 => (probeAttempt oracle w L2).1) hmem
    simp only [probeAttempt_failed oracle w L hfail] at hm
    exact hm

/-- Witness for C8: with an oracle that raises at 32 and returns null at
64, both failures are recorded and all candidate lengths for expected
text `"hi"` are probed. -/
theorem C8_probe_isolation_witness :
    ((detect_watermark_robust mixedOracle (some "hi") none).2.2.2).map (fun a => a.length) =
        testLengths (some "hi") none ∧
      failedAttempt 32 ∈ (detect_watermark_robust mixedOracle (some "hi") none).2.2.2 :=
  C8_probe_isolation mixedOracle (some "hi") none 32 (by decide) (Or.inl rfl)

/-- C7: every entry produced by the scan engine has a probed length not
exceeding the bound, its content is never composed entirely of the three
sentinel control characters, and it is either an accepted strict-UTF-8
candidate (stripped non-empty, all-ASCII, not all-sentinel) or a hex
fallback that differs from the all-0xFF hex string for that length. -/
theorem mem_scanEntryAt {oracle : Nat → DecodeOut} {L : Nat} {e : ScanEntry}
    (he : e ∈ scanEntryAt oracle L) :
    e.length = L ∧
      e.content.data.all (· ∈ sentinelChars) = false ∧
      ((∃ s, utf8Decode e.rawBytes = some s ∧ e.content = s ∧ pyStrip s ≠ "" ∧
          s.data.all (fun c => c.toNat < 128) = true) ∨
        (utf8Decode e.rawBytes = none ∧ e.content = "[HEX] " ++ bytesHex e.rawBytes ∧
          bytesHex e.rawBytes ≠ ffHex (L / 8))) := by
  unfold scanEntryAt at he
  split at he
  · simp at he
  · simp at he
  · next bytes horacle =>
    split at he
    · next s hdec =>
      split at he
      · next hguard =>
        rcases List.mem_singleton.mp he with rfl
        refine ⟨rfl, by simpa using hguard.2.2, Or.inl ⟨s, hdec, rfl, hguard.1, hguard.2.1⟩⟩
      · simp at he
    · next hdec =>
      split at he
      · next hguard =>
        rcases List.mem_singleton.mp he with rfl
        refine ⟨rfl, ?_, Or.inr ⟨hdec, rfl, hguard.2⟩⟩
        rw [String.data_append]
        have hpre : ("[HEX] ").data = ['[', 'H', 'E', 'X', ']', ' '] := rfl
        rw [hpre, List.all_append]
        have h1 : (['[', 'H', 'E', 'X', ']', ' ']).all (· ∈ sentinelChars) = false := by decide
        rw [h1, Bool.false_and]
      · simp at he

theorem C7_scan_guards (oracle : Nat → DecodeOut) (maxLen : Nat) (e : ScanEntry)
    (he : e ∈ extract_any_watermark oracle maxLen) :
    e.length ≤ maxLen ∧
      e.content.data.all (· ∈ sentinelChars) = false ∧
      ((∃ s, utf8Decode e.rawBytes = some s ∧ e.content = s ∧ pyStrip s ≠ "" ∧
          s.data.all (fun c => c.toNat < 128) = true) ∨
        (utf8Decode e.rawBytes = none ∧ e.content = "[HEX] " ++ bytesHex e.rawBytes ∧
          bytesHex e.rawBytes ≠ ffHex (e.length / 8))) := by
  unfold extract_any_watermark at he
  revert he
  generalize scanLengths maxLen = ls
  induction ls with
  | nil =>
    intro he
    simp [scanLoop] at he
  | cons L rest ih =>
    intro he
    unfold scanLoop at he
    split at he
    · simp at he
    · next hbound =>
      rcases List.mem_append.mp he with hat | htail
      · obtain ⟨hlen, hsent, hshape⟩ := mem_scanEntryAt hat
        subst hlen
        exact ⟨by omega, hsent, hshape⟩
      · exact ih htail

/-- Witness for C7: a scan with bound 40 where only length 32 decodes to
`"hi!!"` yields exactly that entry, and the theorem's guards hold on it. -/
theorem C7_scan_guards_witness :
    (⟨32, "hi!!", [104, 105, 33, 33]⟩ : ScanEntry) ∈
        extract_any_watermark (fun L => if L = 32 then .ok [104, 105, 33, 33] else .null) 40 ∧
      32 ≤ 40 ∧
      ("hi!!" : String).data.all (· ∈ sentinelChars) = false :=
  ⟨by with_unfolding_all decide,
    (C7_scan_guards (fun L => if L = 32 then .ok [104, 105, 33, 33] else .null) 40
      ⟨32, "hi!!", [104, 105, 33, 33]⟩ (by with_unfolding_all decide)).1,
    (C7_scan_guards (fun L => if L = 32 then .ok [104, 105, 33, 33] else .null) 40
      ⟨32, "hi!!", [104, 105, 33, 33]⟩ (by with_unfolding_all decide)).2.1⟩

theorem strictPhase_label {bs : List Nat} {d e : String} {c : ℚ}
    (h : strictPhase bs = some (d, e, c)) : ∃ enc ∈ encList, e = encName enc := by
  obtain ⟨enc, hmem, hf⟩ := findSome?_some_mem h
  refine ⟨enc, hmem, ?_⟩
  revert hf
  cases hdec : decodeStrict enc bs with
  | none => intro hf; simp [hdec] at hf
  | some d2 =>
    intro hf
    simp only [hdec] at hf
    split at hf
    · simp only [Option.some.injEq, Prod.mk.injEq] at hf
      exact hf.2.1.symm
    · exact absurd hf (by simp)

theorem ignorePhase_label {bs : List Nat} {d e : String} {c : ℚ}
    (h : ignorePhase bs = some (d, e, c)) :
    ∃ enc ∈ encList, e = encName enc ++ "(ignore)" := by
  obtain ⟨enc, hmem, hf⟩ := findSome?_some_mem h
  refine ⟨enc, hmem, ?_⟩
  revert hf
  dsimp only
  split
  · intro hf
    simp only [Option.some.injEq, Prod.mk.injEq] at hf
    exact hf.2.1.symm
  · intro hf; simp at hf

/-- On well-formed non-empty byte input the latin-1 lossy decode is
non-empty, so the lossy phase always produces a result. -/
theorem ignorePhase_isSome {bs : List Nat} (hne : bs ≠ []) (hwf : ∀ b ∈ bs, b < 256) :
    (ignorePhase bs).isSome := by
  apply findSome?_isSome_of_mem (a := Enc.latin1) (by decide)
  have hfilter : bs.filter (· < 256) = bs :=
    List.filter_eq_self.mpr (fun b hb => decide_eq_true (hwf b hb))
  have hne2 : decodeIgnore .latin1 bs ≠ "" := by
    intro hEq
    have hdata : ((bs.filter (· < 256)).map Char.ofNat) = ([] : List Char) :=
      congrArg String.data hEq
    rw [hfilter] at hdata
    exact hne (List.map_eq_nil_iff.mp hdata)
  dsimp only
  rw [if_pos hne2]
  rfl

/-- C10: on every well-formed non-empty byte string, Text Recovery's
result comes from the strict or lossy phase, so the returned encoding
label is never `"utf-8(replace)"` and never `"hex"` — those two branches
are unreachable. -/
theorem C10_no_replace_or_hex (bs : List Nat) (hne : bs ≠ []) (hwf : ∀ b ∈ bs, b < 256) :
    (bytes_to_text_smart bs).2.1 ≠ some "utf-8(replace)" ∧
      (bytes_to_text_smart bs).2.1 ≠ some "hex" := by
  have hig := ignorePhase_isSome hne hwf
  unfold bytes_to_text_smart
  rw [if_neg hne]
  cases hs : strictPhase bs with
  | some r =>
    obtain ⟨d, e, c⟩ := r
    obtain ⟨enc, _, henc⟩ := strictPhase_label hs
    subst henc
    constructor <;> (cases enc <;> simp [encName])
  | none =>
    cases hi : ignorePhase bs with
    | none => rw [hi] at hig; simp at hig
    | some r =>
      obtain ⟨d, e, c⟩ := r
      obtain ⟨enc, _, henc⟩ := ignorePhase_label hi
      subst henc
      constructor <;> (cases enc <;> simp [encName])

/-- Witness for C10: the byte string `[0]` (which fails the strict
printability bar and is recovered by the lossy phase). -/
theorem C10_no_replace_or_hex_witness :
    (bytes_to_text_smart [0]).2.1 ≠ some "utf-8(replace)" ∧
      (bytes_to_text_smart [0]).2.1 ≠ some "hex" :=
  C10_no_replace_or_hex [0] (by decide) (by decide)

end Watermark
